import Mathlib

/-!
Verification of the VidVRD-py3 evaluation engine
(src/evaluation/visual_relation_detection.py and src/evaluate.py).

The relation records of the source are Python dicts with fields
`triplet`, `sub_traj`, `obj_traj`, `duration` and (for predictions)
`score`.  Triplets are value-compared tuples of category labels,
modelled as triples of naturals.  Trajectories are only ever passed to
the external overlap primitive `viou` (imported from the `common`
collaborator module, which treats them as opaque data), so they are
modelled as opaque handles and `viou` is a parameter of every
definition that needs it.  Scores and all derived metric values are
modelled as rationals; the float32 machine epsilon used by the
source to guard divisions is the exact rational 2 ^ (-23).  The
negative-infinity miss sentinel of the source becomes `Option.none`,
so that `np.isfinite` becomes `Option.isSome`.
-/

/-- Category-label triple `(subject, predicate, object)`, value-compared
as in the source (`tuple(r['triplet'])`). -/
abbrev Triplet := ℕ × ℕ × ℕ

/-- Opaque trajectory handle; the source only hands trajectories to `viou`. -/
abbrev Traj := ℕ

/-- A `[start_frame, end_frame)` duration pair. -/
abbrev Duration := ℕ × ℕ

/-- The spatio-temporal overlap primitive `viou(traj, dur, traj, dur)`,
an external collaborator of the evaluation core; every theorem below is
quantified over it. -/
abbrev VIou := Traj → Duration → Traj → Duration → ℚ

/-- A ground-truth relation instance (no score field). -/
structure GtRel where
  triplet : Triplet
  sub_traj : Traj
  obj_traj : Traj
  duration : Duration
deriving DecidableEq

instance : Inhabited GtRel := ⟨⟨(0, 0, 0), 0, 0, (0, 0)⟩⟩

/-- A predicted relation instance; `score` is the ranking confidence. -/
structure PredRel where
  triplet : Triplet
  sub_traj : Traj
  obj_traj : Traj
  duration : Duration
  score : ℚ
deriving DecidableEq

/-- `np.finfo(np.float32).eps`, the epsilon guarding divisions. -/
def eps32 : ℚ := 1 / 8388608

/-- Running cumulative sums (`np.cumsum`) starting from accumulator `a`. -/
def cumsum (a : ℚ) : List ℚ → List ℚ
  | [] => []
  | x :: xs => (a + x) :: cumsum (a + x) xs

/-- 1 for a finite (hit) entry, 0 for the miss sentinel; models casting
the `np.isfinite` mask to float for `np.cumsum`. -/
def indicator (o : Option ℚ) : ℚ := if o.isSome then 1 else 0

/-- Precision and recall curves built from a rank-ordered hit/miss array:
`rec = cum_tp / max(ngt, eps)` and `prec = cum_tp / max(cum_tp + cum_fp, eps)`. -/
def precRec (hs : List (Option ℚ)) (ngt : ℕ) : List ℚ × List ℚ :=
  let ctp := cumsum 0 (hs.map indicator)
  let cfp := cumsum 0 (hs.map (fun o => 1 - indicator o))
  (((ctp.zip cfp).map fun tf => tf.1 / max (tf.1 + tf.2) eps32),
    ctp.map fun c => c / max (ngt : ℚ) eps32)

/-- Descending order on scores used by `sorted(..., reverse=True)`:
`a` may precede `b` when the score of `b` is at most the score of `a`.
Python sorting is stable; `List.insertionSort` with this relation is the
same stable descending sort. -/
def predGe (a b : PredRel) : Prop := b.score ≤ a.score

instance : DecidableRel predGe := fun a b => inferInstanceAs (Decidable (b.score ≤ a.score))

instance : IsTotal PredRel predGe := ⟨fun a b => le_total b.score a.score⟩

instance : IsTrans PredRel predGe := ⟨fun _ _ _ h h' => le_trans h' h⟩

/-- The predictions sorted by score, descending and stable. -/
def sortPreds (preds : List PredRel) : List PredRel := preds.insertionSort predGe

/-- The candidate overlap `min(s_iou, o_iou)` of a prediction with a
ground-truth instance. -/
def ovOf (viou : VIou) (p : PredRel) (g : GtRel) : ℚ :=
  min (viou p.sub_traj p.duration g.sub_traj g.duration)
    (viou p.obj_traj p.duration g.obj_traj g.duration)

/-- `ov_max < ov` where `ov_max` starts as `-inf` (`none`). -/
def ltOv (ovMax : Option ℚ) (ov : ℚ) : Prop :=
  match ovMax with
  | none => True
  | some m => m < ov

instance (o : Option ℚ) (v : ℚ) : Decidable (ltOv o v) :=
  match o with
  | none => isTrue trivial
  | some m => inferInstanceAs (Decidable (m < v))

/-- The inner candidate scan of `eval_detection_scores`: walk the
ground-truth indices carrying `(ov_max, k_max)`, updating on an
unclaimed index of equal triplet whose overlap reaches the threshold
and strictly exceeds the running maximum. -/
def innerAux (viou : VIou) (thr : ℚ) (p : PredRel) (gts : List GtRel) (det : List Bool) :
    List ℕ → Option ℚ → Option ℕ → Option ℚ × Option ℕ
  | [], ovMax, kMax => (ovMax, kMax)
  | i :: is, ovMax, kMax =>
    if det.getD i false = false ∧ (gts.getD i default).triplet = p.triplet ∧
        thr ≤ ovOf viou p (gts.getD i default) ∧ ltOv ovMax (ovOf viou p (gts.getD i default)) then
      innerAux viou thr p gts det is (some (ovOf viou p (gts.getD i default))) (some i)
    else
      innerAux viou thr p gts det is ovMax kMax

/-- The index `k_max` selected for one prediction (`none` when `k_max`
stays `-1`). -/
def innerLoop (viou : VIou) (thr : ℚ) (p : PredRel) (gts : List GtRel) (det : List Bool) :
    Option ℕ :=
  (innerAux viou thr p gts det (List.range gts.length) none none).2

/-- The matching pass over the score-sorted predictions: each entry is
`some (score, claimed index)` for a hit and `none` for the
negative-infinity miss sentinel; a hit flips the claimed flag. -/
def detLoop (viou : VIou) (thr : ℚ) (gts : List GtRel) :
    List PredRel → List Bool → List (Option (ℚ × ℕ))
  | [], _ => []
  | p :: ps, det =>
    match innerLoop viou thr p gts det with
    | some k => some (p.score, k) :: detLoop viou thr gts ps (det.set k true)
    | none => none :: detLoop viou thr gts ps det

/-- `eval_detection_scores(gt_relations, pred_relations, viou_threshold)`:
returns `(prec, rec, hit_scores)` aligned to the predictions sorted by
descending score. -/
def eval_detection_scores (viou : VIou) (gts : List GtRel) (preds : List PredRel) (thr : ℚ) :
    List ℚ × List ℚ × List (Option ℚ) :=
  let hs := (detLoop viou thr gts (sortPreds preds) (List.replicate gts.length false)).map
    (Option.map Prod.fst)
  let pr := precRec hs gts.length
  (pr.1, pr.2, hs)

/-- A ground-truth index a prediction may consider: not yet claimed,
equal triplet, and overlap at least the threshold. -/
def Qualify (viou : VIou) (thr : ℚ) (p : PredRel) (gts : List GtRel) (det : List Bool)
    (i : ℕ) : Prop :=
  det.getD i false = false ∧ (gts.getD i default).triplet = p.triplet ∧
    thr ≤ ovOf viou p (gts.getD i default)

/-- Order on running maxima: `none` is the initial `-inf`. -/
def oleOv : Option ℚ → Option ℚ → Prop
  | none, _ => True
  | some _, none => False
  | some x, some y => x ≤ y

/-- The ground-truth indices claimed over one matching pass, in the
order the claiming predictions were processed. -/
def claimedIdx (hs : List (Option (ℚ × ℕ))) : List ℕ :=
  hs.filterMap fun o => o.map Prod.snd

/-- The first-occurrence deduplication loop of `eval_tagging_scores`:
walk the score-sorted predictions keeping the first occurrence of each
triplet (with its score), carrying the list of triplets seen so far. -/
def tagDedup : List PredRel → List Triplet → List (Triplet × ℚ)
  | [], _ => []
  | r :: rs, seen =>
    if r.triplet ∈ seen then tagDedup rs seen
    else (r.triplet, r.score) :: tagDedup rs (seen ++ [r.triplet])

/-- `eval_tagging_scores(gt_relations, pred_relations)`: triplet-only
evaluation over the deduplicated score-sorted predicted triplets; the
recall denominator is the cardinality of the ground-truth triplet set. -/
def eval_tagging_scores (gts : List GtRel) (preds : List PredRel) :
    List ℚ × List ℚ × List (Option ℚ) :=
  let gtT := gts.map GtRel.triplet
  let pairs := tagDedup (sortPreds preds) []
  let hs := pairs.map fun ts => if ts.1 ∈ gtT then some ts.2 else none
  let pr := precRec hs gtT.dedup.length
  (pr.1, pr.2, hs)

/-- Declarative first-occurrence deduplication on key-value pairs, used
to state what `tagDedup` computes. -/
def dedupFirst : List (Triplet × ℚ) → List (Triplet × ℚ)
  | [] => []
  | x :: xs => x :: dedupFirst (xs.filter fun y => decide (y.1 ≠ x.1))
termination_by l => l.length
decreasing_by
  simp only [List.length_cons]
  exact Nat.lt_succ_of_le (List.length_filter_le _ _)

/-- Running maxima from the right: entry i is the maximum of the input
from position i on (the VOC precision envelope). -/
def envelope : List ℚ → List ℚ
  | [] => []
  | p :: ps =>
    match envelope ps with
    | [] => [p]
    | q :: t => max p q :: q :: t

/-- Modelled from the spec: `voc_ap` lives in the `common` collaborator
module, which is not among the sources; section 4.3 of the spec pins its
semantics as the PASCAL-VOC interpolated integration — envelope
precision at a point is the maximum precision at or beyond that recall
level, and the AP is the sum of envelope precision times recall
increment, 0 for empty input.  Aggregator theorems below are quantified
over an arbitrary AP functional and only concrete evaluations use this
model. -/
def voc_ap (rec prec : List ℚ) : ℚ :=
  ((((rec.zip (0 :: rec)).map fun rp => rp.1 - rp.2).zip (envelope prec)).map
    fun de => de.1 * de.2).sum

/-- The type of the AP functional `voc_ap(rec, prec)` consumed by the
aggregators. -/
abbrev VocAp := List ℚ → List ℚ → ℚ

/-- What one evaluated video contributes to the aggregation: its AP
value, its full detection hit/miss score array and its tagging
precision curve. -/
structure Contrib where
  ap : ℚ
  detScores : List (Option ℚ)
  tagPrec : List ℚ
deriving DecidableEq

/-- The per-video body of the aggregation loop: run the matcher and the
tagger and keep `voc_ap(det_rec, det_prec)`, `det_scores` and `tag_prec`. -/
def videoContrib (viou : VIou) (vocap : VocAp) (thr : ℚ) (gts : List GtRel)
    (preds : List PredRel) : Contrib :=
  let d := eval_detection_scores viou gts preds thr
  ⟨vocap d.2.1 d.1, d.2.2, (eval_tagging_scores gts preds).1⟩

/-- The ground-truth-anchored loop of `evaluate`: iterate the
ground-truth mapping in order, skip videos with no relations, index the
prediction mapping (`none` models the KeyError escape on a missing
key), and accumulate the per-video contributions together with the
total ground-truth relation count. -/
def gtLoop (viou : VIou) (vocap : VocAp) (thr : ℚ) (pred : List (ℕ × List PredRel)) :
    List (ℕ × List GtRel) → Option (List Contrib × ℕ)
  | [] => some ([], 0)
  | (vid, gts) :: rest =>
    if gts.isEmpty then gtLoop viou vocap thr pred rest
    else
      match pred.lookup vid with
      | none => none
      | some preds =>
        (gtLoop viou vocap thr pred rest).map fun ct =>
          (videoContrib viou vocap thr gts preds :: ct.1, gts.length + ct.2)

/-- The prediction-anchored loop of `evaluate`: symmetric to `gtLoop`,
iterating the prediction mapping, skipping videos with no predictions
and accumulating the total prediction count. -/
def predLoop (viou : VIou) (vocap : VocAp) (thr : ℚ) (gt : List (ℕ × List GtRel)) :
    List (ℕ × List PredRel) → Option (List Contrib × ℕ)
  | [] => some ([], 0)
  | (vid, preds) :: rest =>
    if preds.isEmpty then predLoop viou vocap thr gt rest
    else
      match gt.lookup vid with
      | none => none
      | some gts =>
        (predLoop viou vocap thr gt rest).map fun ct =>
          (videoContrib viou vocap thr gts preds :: ct.1, preds.length + ct.2)

/-- Descending order on pooled score entries, the miss sentinel `none`
ranking below every finite score. -/
def optGe : Option ℚ → Option ℚ → Prop
  | none, none => True
  | some _, none => True
  | none, some _ => False
  | some x, some y => y ≤ x

instance : DecidableRel optGe := fun a b =>
  match a, b with
  | none, none => isTrue trivial
  | some _, none => isTrue trivial
  | none, some _ => isFalse not_false
  | some x, some y => inferInstanceAs (Decidable (y ≤ x))

/-- The corpus-level recall at one cutoff: sort the pooled truncated
score arrays descending, take the cumulative true-positive count at the
last rank and divide by `max(total, eps)`.  `none` models the IndexError
escape of `rec[-1]` on an empty pool (and the ValueError escape of
`np.concatenate` on an empty array list, which also yields an empty
pool). -/
def recAtN (pooled : List (Option ℚ)) (tot : ℕ) : Option ℚ :=
  ((cumsum 0 ((pooled.insertionSort optGe).map indicator)).getLast?).map fun c =>
    c / max (tot : ℚ) eps32

/-- The per-video tagging precision read at cutoff `nre`:
`tag_prec[min(nre, size) - 1]` when that rank exists, else 0. -/
def precAtCut (tp : List ℚ) (nre : ℕ) : ℚ :=
  if 0 < min nre tp.length then tp.getD (min nre tp.length - 1) 0 else 0

/-- The scalar results of the aggregators. -/
structure EvalResult where
  mean_ap : ℚ
  rec_at_n : List (ℕ × ℚ)
  mprec_at_n : List (ℕ × ℚ)
deriving DecidableEq

/-- The tail of `evaluate` after the video loop: mean of the per-video
AP values, pooled recall per detection cutoff, mean tagging precision
per tagging cutoff.  `np.mean` of an empty array is NaN in the source;
with a non-empty cutoff list that case never returns (the recall pooling
raises first, `none` here), and no theorem below relies on it. -/
def assemble (contribs : List Contrib) (tot : ℕ) (detN tagN : List ℕ) : Option EvalResult :=
  (detN.mapM fun n =>
      (recAtN ((contribs.map fun c => c.detScores.take n).flatten) tot).map fun x =>
        (n, x)).map fun rs =>
    ⟨(contribs.map Contrib.ap).sum / ((contribs.map Contrib.ap).length : ℚ), rs,
      tagN.map fun n =>
        (n, (contribs.map fun c => precAtCut c.tagPrec n).sum / (contribs.length : ℚ))⟩

/-- `evaluate(groundtruth, prediction, base_on_gt, viou_threshold,
det_nreturns, tag_nreturns)`: the video-level aggregator; mappings are
insertion-ordered association lists as Python dicts are. -/
def evaluate (viou : VIou) (vocap : VocAp) (groundtruth : List (ℕ × List GtRel))
    (prediction : List (ℕ × List PredRel)) (base_on_gt : Bool) (viou_threshold : ℚ)
    (det_nreturns tag_nreturns : List ℕ) : Option EvalResult :=
  if base_on_gt then
    (gtLoop viou vocap viou_threshold prediction groundtruth).bind fun ct =>
      assemble ct.1 ct.2 det_nreturns tag_nreturns
  else
    (predLoop viou vocap viou_threshold groundtruth prediction).bind fun ct =>
      assemble ct.1 ct.2 det_nreturns tag_nreturns

/-- Python dict assignment `d[k] = v`: overwrite in place when the key
is present, append otherwise. -/
def dictInsert (d : List (ℕ × ℚ)) (k : ℕ) (v : ℚ) : List (ℕ × ℚ) :=
  if d.any fun p => p.1 == k then d.map fun p => if p.1 == k then (k, v) else p
  else d ++ [(k, v)]

/-- The per-segment inner loop of `evaluate_segs`: for each ground-truth
segment of a video, evaluate detection and tagging of the full
prediction list against that single segment; the AP value is written to
`seg_ap[vid]`, overwriting the value of any earlier segment of the same
video. -/
def segsInner (viou : VIou) (vocap : VocAp) (thr : ℚ) (vid : ℕ) (preds : List PredRel) :
    List GtRel → List (ℕ × ℚ) → List Contrib → List (ℕ × ℚ) × List Contrib
  | [], segAp, cs => (segAp, cs)
  | seg :: rest, segAp, cs =>
    let c := videoContrib viou vocap thr [seg] preds
    segsInner viou vocap thr vid preds rest (dictInsert segAp vid c.ap) (cs ++ [c])

/-- The prediction-anchored loop of `evaluate_segs`: iterate the
prediction mapping, skip videos with no predictions, index the
ground-truth mapping, and run the segment inner loop, accumulating the
total prediction count. -/
def segsLoop (viou : VIou) (vocap : VocAp) (thr : ℚ) (gt : List (ℕ × List GtRel)) :
    List (ℕ × List PredRel) → List (ℕ × ℚ) → List Contrib → ℕ →
      Option (List (ℕ × ℚ) × List Contrib × ℕ)
  | [], segAp, cs, tot => some (segAp, cs, tot)
  | (vid, preds) :: rest, segAp, cs, tot =>
    if preds.isEmpty then segsLoop viou vocap thr gt rest segAp cs tot
    else
      match gt.lookup vid with
      | none => none
      | some gts =>
        let sc := segsInner viou vocap thr vid preds gts segAp cs
        segsLoop viou vocap thr gt rest sc.1 sc.2 (tot + preds.length)

/-- The tail of `evaluate_segs`: the AP mean runs over the values of the
`seg_ap` dict (one entry per video id), while recall pooling and mean
tagging precision run over the per-segment contributions, with the
total prediction count as recall denominator. -/
def assembleSegs (segAp : List (ℕ × ℚ)) (contribs : List Contrib) (tot : ℕ)
    (detN tagN : List ℕ) : Option EvalResult :=
  (detN.mapM fun n =>
      (recAtN ((contribs.map fun c => c.detScores.take n).flatten) tot).map fun x =>
        (n, x)).map fun rs =>
    ⟨(segAp.map Prod.snd).sum / ((segAp.map Prod.snd).length : ℚ), rs,
      tagN.map fun n =>
        (n, (contribs.map fun c => precAtCut c.tagPrec n).sum / (contribs.length : ℚ))⟩

/-- `evaluate_segs(groundtruth, prediction, base_on_gt, ...)`: the
segment-level aggregator.  The ground-truth-anchored branch of the
source prints a placeholder and terminates the process via `exit(0)`
without ever producing results; it is modelled as `none`. -/
def evaluate_segs (viou : VIou) (vocap : VocAp) (groundtruth : List (ℕ × List GtRel))
    (prediction : List (ℕ × List PredRel)) (base_on_gt : Bool) (viou_threshold : ℚ)
    (det_nreturns tag_nreturns : List ℕ) : Option EvalResult :=
  if base_on_gt then none
  else
    (segsLoop viou vocap viou_threshold groundtruth prediction [] [] 0).bind fun s =>
      assembleSegs s.1 s.2.1 s.2.2 det_nreturns tag_nreturns

/-- The zero-shot filtering loop of `evaluate_relation`
(src/evaluate.py lines 37 to 50): for each video of the split index,
keep the ground-truth relations whose triplet is zero-shot; when any
survive, store them and the equally filtered predictions of that video
(`none` models the KeyError escape on a vid missing from the prediction
mapping). -/
def zsLoop (zs : List Triplet) (relInsts : ℕ → List GtRel)
    (prediction : List (ℕ × List PredRel)) :
    List ℕ → Option (List (ℕ × List GtRel) × List (ℕ × List PredRel))
  | [] => some ([], [])
  | vid :: rest =>
    let zgt := (relInsts vid).filter fun r => decide (r.triplet ∈ zs)
    if zgt.isEmpty then zsLoop zs relInsts prediction rest
    else
      match prediction.lookup vid with
      | none => none
      | some preds =>
        (zsLoop zs relInsts prediction rest).map fun gz =>
          ((vid, zgt) :: gz.1, (vid, preds.filter fun r => decide (r.triplet ∈ zs)) :: gz.2)

/-- The zero-shot pass of `evaluate_relation` (src/evaluate.py lines 34
to 54): the zero-shot triplet set is the split vocabulary minus the
train vocabulary, and the filtered groundtruth/prediction mappings are
built by `zsLoop`.  The dataset accessors (`get_triplets`, `get_index`,
`get_relation_insts`) are external collaborators passed as parameters. -/
def evaluate_relation_zeroshot (splitT trainT : List Triplet) (index : List ℕ)
    (relInsts : ℕ → List GtRel) (prediction : List (ℕ × List PredRel)) :
    Option (List (ℕ × List GtRel) × List (ℕ × List PredRel)) :=
  zsLoop (splitT.filter fun t => decide (t ∉ trainT)) relInsts prediction index

/-- The videos the ground-truth-anchored `evaluate` actually evaluates:
those whose relation list is non-empty, in mapping order. -/
def evalVideos (gt : List (ℕ × List GtRel)) : List (ℕ × List GtRel) :=
  gt.filter fun p => !p.2.isEmpty

/-- The mean AP the spec prescribes for the ground-truth-anchored
`evaluate`: the arithmetic mean of the per-video AP values of exactly
the videos with at least one ground-truth relation. -/
def claimedMeanAp (viou : VIou) (vocap : VocAp) (thr : ℚ) (gt : List (ℕ × List GtRel))
    (pred : List (ℕ × List PredRel)) : ℚ :=
  let aps := (evalVideos gt).map fun p =>
    let d := eval_detection_scores viou p.2 ((pred.lookup p.1).getD []) thr
    vocap d.2.1 d.1
  aps.sum / (aps.length : ℚ)

/-- The pooled recall the spec prescribes: total hits among each
evaluated video top-n ranked predictions divided by the total
ground-truth relation count of those videos. -/
def claimedRecAtN (viou : VIou) (thr : ℚ) (gt : List (ℕ × List GtRel))
    (pred : List (ℕ × List PredRel)) (n : ℕ) : ℚ :=
  let hits := ((evalVideos gt).map fun p =>
    ((eval_detection_scores viou p.2 ((pred.lookup p.1).getD []) thr).2.2.take n).countP
      fun o => o.isSome).sum
  (hits : ℚ) / (((evalVideos gt).map fun p => p.2.length).sum : ℚ)

/-- The mean tagging precision claim C4 states: a video contributes its
precision at rank n, and 0 whenever it has fewer than n retained
triplets. -/
def claimedMprecAtN (gt : List (ℕ × List GtRel)) (pred : List (ℕ × List PredRel))
    (n : ℕ) : ℚ :=
  let vals := (evalVideos gt).map fun p =>
    let tp := (eval_tagging_scores p.2 ((pred.lookup p.1).getD [])).1
    if n ≤ tp.length then tp.getD (n - 1) 0 else 0
  vals.sum / (vals.length : ℚ)

/-- The mean tagging precision the code computes: a video with m ≥ 1
retained triplets contributes its precision at rank min(n, m); only a
video with no retained triplet contributes 0. -/
def amendedMprecAtN (gt : List (ℕ × List GtRel)) (pred : List (ℕ × List PredRel))
    (n : ℕ) : ℚ :=
  let vals := (evalVideos gt).map fun p =>
    let tp := (eval_tagging_scores p.2 ((pred.lookup p.1).getD [])).1
    if tp.isEmpty then 0 else tp.getD (min n tp.length - 1) 0
  vals.sum / (vals.length : ℚ)

/-- The segment-level mean AP claim C6 states: every ground-truth
segment of every evaluated video contributes its own AP value to the
mean. -/
def perSegmentMeanAp (viou : VIou) (vocap : VocAp) (thr : ℚ) (gt : List (ℕ × List GtRel))
    (pred : List (ℕ × List PredRel)) : ℚ :=
  let aps := ((pred.filter fun p => !p.2.isEmpty).map fun p =>
    ((gt.lookup p.1).getD []).map fun seg => (videoContrib viou vocap thr [seg] p.2).ap).flatten
  aps.sum / (aps.length : ℚ)

/-- Constant overlap primitive used by concrete examples. -/
def viou1 : VIou := fun _ _ _ _ => 1

/-- Overlap primitive for the greedy-matching example: overlap 9/10
against the ground-truth instance whose trajectories carry handle 1,
overlap 3/5 against every other. -/
def viouW : VIou := fun _ _ g _ => if g = 1 then 9 / 10 else 3 / 5

/-- Ground-truth instance with triplet (1,2,3), trajectory handles 0. -/
def gW0 : GtRel := ⟨(1, 2, 3), 0, 0, (0, 10)⟩

/-- Ground-truth instance with triplet (1,2,3), trajectory handles 1. -/
def gW1 : GtRel := ⟨(1, 2, 3), 1, 1, (0, 10)⟩

/-- Two same-triplet ground-truth instances with different overlaps. -/
def gtsW : List GtRel := [gW0, gW1]

/-- Prediction with triplet (1,2,3) and score 4/5. -/
def pW : PredRel := ⟨(1, 2, 3), 5, 5, (0, 10), 4 / 5⟩

/-- Ground-truth instance with triplet (1,2,3). -/
def gA : GtRel := ⟨(1, 2, 3), 0, 0, (0, 10)⟩

/-- Prediction with triplet (1,2,3), score 9/10: a hit against `gA`
under `viou1`. -/
def pA : PredRel := ⟨(1, 2, 3), 1, 1, (0, 10), 9 / 10⟩

/-- Ground-truth instance with triplet (7,8,9). -/
def gB : GtRel := ⟨(7, 8, 9), 2, 2, (0, 10)⟩

/-- Prediction with triplet (4,5,6), score 1/2: a miss against `gB`. -/
def pB : PredRel := ⟨(4, 5, 6), 3, 3, (0, 10), 1 / 2⟩

/-- Two-video ground truth for the pooled-recall example. -/
def exGt2 : List (ℕ × List GtRel) := [(0, [gA]), (1, [gB])]

/-- Two-video predictions: the top prediction of video 0 hits, the one
of video 1 misses. -/
def exPred2 : List (ℕ × List PredRel) := [(0, [pA]), (1, [pB])]

/-- One-video ground truth with a single relation. -/
def exGt4 : List (ℕ × List GtRel) := [(0, [gA])]

/-- One-video prediction list with a single hitting prediction. -/
def exPred4 : List (ℕ × List PredRel) := [(0, [pA])]

/-- Ground-truth instance with triplet (4,5,6), used as a second
segment. -/
def segB : GtRel := ⟨(4, 5, 6), 1, 1, (0, 10)⟩

/-- One video with two ground-truth segments whose AP values differ. -/
def gtC6 : List (ℕ × List GtRel) := [(0, [gA, segB])]

/-- One prediction matching the first segment only. -/
def predC6 : List (ℕ × List PredRel) := [(0, [pA])]

/-- Prediction with triplet (4,5,6), score 7/10, for the tagging
deduplication example. -/
def pC : PredRel := ⟨(4, 5, 6), 4, 4, (0, 10), 7 / 10⟩

-- END-OF-DEFINITIONS marker: theorems only below this point.

theorem oleOv_refl (a : Option ℚ) : oleOv a a := by
  cases a <;> simp [oleOv]

theorem oleOv_trans {a b c : Option ℚ} (h : oleOv a b) (h' : oleOv b c) : oleOv a c := by
  cases a <;> cases b <;> cases c <;> simp_all [oleOv]
  exact le_trans h h'

theorem innerAux_spec (viou : VIou) (thr : ℚ) (p : PredRel) (gts : List GtRel)
    (det : List Bool) :
    ∀ (is : List ℕ) (ovMax : Option ℚ) (kMax : Option ℕ),
      oleOv ovMax (innerAux viou thr p gts det is ovMax kMax).1 ∧
      (∀ j ∈ is, Qualify viou thr p gts det j →
        oleOv (some (ovOf viou p (gts.getD j default)))
          (innerAux viou thr p gts det is ovMax kMax).1) ∧
      (innerAux viou thr p gts det is ovMax kMax = (ovMax, kMax) ∨
        ∃ k ∈ is, innerAux viou thr p gts det is ovMax kMax =
          (some (ovOf viou p (gts.getD k default)), some k) ∧ Qualify viou thr p gts det k) := by
  intro is
  induction is with
  | nil =>
    intro ovMax kMax
    refine ⟨oleOv_refl _, ?_, Or.inl rfl⟩
    intro j hj
    exact absurd hj (List.not_mem_nil j)
  | cons i is ih =>
    intro ovMax kMax
    by_cases hc : det.getD i false = false ∧ (gts.getD i default).triplet = p.triplet ∧
        thr ≤ ovOf viou p (gts.getD i default) ∧ ltOv ovMax (ovOf viou p (gts.getD i default))
    · have hstep : innerAux viou thr p gts det (i :: is) ovMax kMax =
          innerAux viou thr p gts det is (some (ovOf viou p (gts.getD i default))) (some i) := by
        simp only [innerAux, if_pos hc]
      obtain ⟨ih1, ih2, ih3⟩ := ih (some (ovOf viou p (gts.getD i default))) (some i)
      have hmono : oleOv ovMax (innerAux viou thr p gts det (i :: is) ovMax kMax).1 := by
        rw [hstep]
        refine oleOv_trans ?_ ih1
        rcases hc with ⟨-, -, -, hlt⟩
        cases ovMax with
        | none => trivial
        | some m => exact le_of_lt hlt
      refine ⟨hmono, ?_, ?_⟩
      · intro j hj hq
        rcases List.mem_cons.mp hj with rfl | hj'
        · rw [hstep]; exact ih1
        · rw [hstep]; exact ih2 j hj' hq
      · rw [hstep]
        rcases ih3 with heq | ⟨k, hk, heq, hqk⟩
        · exact Or.inr ⟨i, List.mem_cons_self i is, heq, hc.1, hc.2.1, hc.2.2.1⟩
        · exact Or.inr ⟨k, List.mem_cons_of_mem i hk, heq, hqk⟩
    · have hstep : innerAux viou thr p gts det (i :: is) ovMax kMax =
          innerAux viou thr p gts det is ovMax kMax := by
        simp only [innerAux, if_neg hc]
      obtain ⟨ih1, ih2, ih3⟩ := ih ovMax kMax
      refine ⟨by rw [hstep]; exact ih1, ?_, ?_⟩
      · intro j hj hq
        rcases List.mem_cons.mp hj with rfl | hj'
        · rw [hstep]
          have hnlt : ¬ ltOv ovMax (ovOf viou p (gts.getD j default)) := by
            intro hlt
            exact hc ⟨hq.1, hq.2.1, hq.2.2, hlt⟩
          cases ovMax with
          | none => exact absurd trivial hnlt
          | some m =>
            have : ovOf viou p (gts.getD j default) ≤ m := le_of_not_lt hnlt
            exact oleOv_trans (show oleOv (some (ovOf viou p (gts.getD j default))) (some m)
              from this) ih1
        · rw [hstep]; exact ih2 j hj' hq
      · rw [hstep]
        rcases ih3 with heq | ⟨k, hk, heq, hqk⟩
        · exact Or.inl heq
        · exact Or.inr ⟨k, List.mem_cons_of_mem i hk, heq, hqk⟩

theorem innerLoop_some (viou : VIou) (thr : ℚ) (p : PredRel) (gts : List GtRel)
    (det : List Bool) (k : ℕ) (h : innerLoop viou thr p gts det = some k) :
    k < gts.length ∧ Qualify viou thr p gts det k ∧
      ∀ j, j < gts.length → Qualify viou thr p gts det j →
        ovOf viou p (gts.getD j default) ≤ ovOf viou p (gts.getD k default) := by
  obtain ⟨h1, h2, h3⟩ := innerAux_spec viou thr p gts det (List.range gts.length) none none
  rcases h3 with heq | ⟨k', hk', heq, hqk⟩
  · rw [innerLoop, heq] at h
    exact absurd h (by simp)
  · rw [innerLoop, heq] at h
    simp only [Option.some.injEq] at h
    subst h
    refine ⟨List.mem_range.mp hk', hqk, ?_⟩
    intro j hj hq
    have := h2 j (List.mem_range.mpr hj) hq
    rw [heq] at this
    exact this

theorem innerLoop_none (viou : VIou) (thr : ℚ) (p : PredRel) (gts : List GtRel)
    (det : List Bool) (h : innerLoop viou thr p gts det = none) :
    ∀ j, j < gts.length → ¬ Qualify viou thr p gts det j := by
  obtain ⟨h1, h2, h3⟩ := innerAux_spec viou thr p gts det (List.range gts.length) none none
  rcases h3 with heq | ⟨k', hk', heq, hqk⟩
  · intro j hj hq
    have := h2 j (List.mem_range.mpr hj) hq
    rw [heq] at this
    exact this
  · rw [innerLoop, heq] at h
    exact absurd h (by simp)

theorem detLoop_claimedIdx (viou : VIou) (thr : ℚ) (gts : List GtRel) :
    ∀ (ps : List PredRel) (det : List Bool), det.length = gts.length →
      (∀ k ∈ claimedIdx (detLoop viou thr gts ps det),
        det.getD k false = false ∧ k < gts.length) ∧
      (claimedIdx (detLoop viou thr gts ps det)).Nodup := by
  intro ps
  induction ps with
  | nil => intro det _; simp [detLoop, claimedIdx]
  | cons p ps ih =>
    intro det hlen
    cases hil : innerLoop viou thr p gts det with
    | none =>
      have hrw : detLoop viou thr gts (p :: ps) det = none :: detLoop viou thr gts ps det := by
        simp [detLoop, hil]
      have hci : claimedIdx (detLoop viou thr gts (p :: ps) det) =
          claimedIdx (detLoop viou thr gts ps det) := by
        rw [hrw]; simp [claimedIdx]
      rw [hci]
      exact ih det hlen
    | some k =>
      obtain ⟨hklt, hq, -⟩ := innerLoop_some viou thr p gts det k hil
      have hrw : detLoop viou thr gts (p :: ps) det =
          some (p.score, k) :: detLoop viou thr gts ps (det.set k true) := by
        simp [detLoop, hil]
      have hci : claimedIdx (detLoop viou thr gts (p :: ps) det) =
          k :: claimedIdx (detLoop viou thr gts ps (det.set k true)) := by
        rw [hrw]; simp [claimedIdx]
      have hlen' : (det.set k true).length = gts.length := by
        rw [List.length_set]; exact hlen
      obtain ⟨ihmem, ihnd⟩ := ih (det.set k true) hlen'
      have hkd : k < det.length := hlen ▸ hklt
      have hfresh : ∀ j ∈ claimedIdx (detLoop viou thr gts ps (det.set k true)),
          j ≠ k ∧ det.getD j false = false ∧ j < gts.length := by
        intro j hj
        obtain ⟨hjf, hjlt⟩ := ihmem j hj
        have hjk : j ≠ k := by
          intro rfl_eq
          subst rfl_eq
          rw [List.getD_eq_getElem?_getD, List.getElem?_set_self hkd] at hjf
          simp at hjf
        refine ⟨hjk, ?_, hjlt⟩
        rw [List.getD_eq_getElem?_getD, List.getElem?_set_ne (Ne.symm hjk)] at hjf
        rw [List.getD_eq_getElem?_getD]
        exact hjf
      rw [hci]
      refine ⟨?_, ?_⟩
      · intro j hj
        rcases List.mem_cons.mp hj with rfl | hj'
        · exact ⟨hq.1, hklt⟩
        · exact (hfresh j hj').2
      · refine List.nodup_cons.mpr ⟨?_, ihnd⟩
        intro hkmem
        exact absurd rfl (hfresh k hkmem).1

theorem claimedIdx_length_le (viou : VIou) (thr : ℚ) (gts : List GtRel) (ps : List PredRel) :
    (claimedIdx (detLoop viou thr gts ps (List.replicate gts.length false))).length ≤
      gts.length := by
  obtain ⟨hmem, hnd⟩ := detLoop_claimedIdx viou thr gts ps (List.replicate gts.length false)
    (List.length_replicate _ _)
  have hsub : claimedIdx (detLoop viou thr gts ps (List.replicate gts.length false)) ⊆
      List.range gts.length := by
    intro k hk
    exact List.mem_range.mpr (hmem k hk).2
  have := (List.subperm_of_subset hnd hsub).length_le
  simpa using this

theorem countSome_map_fst (hs : List (Option (ℚ × ℕ))) :
    (hs.map (Option.map Prod.fst)).countP (fun o => o.isSome) = (claimedIdx hs).length := by
  induction hs with
  | nil => simp [claimedIdx]
  | cons o t ih =>
    cases o <;> simp [claimedIdx, List.countP_cons, List.filterMap_cons] at * <;> omega

theorem sum_indicator (hs : List (Option ℚ)) :
    (hs.map indicator).sum = ((hs.countP fun o => o.isSome : ℕ) : ℚ) := by
  induction hs with
  | nil => simp
  | cons o t ih =>
    cases o <;> simp [indicator, List.countP_cons, ih] <;> ring

theorem cumsum_mem_bounds (l : List ℚ) (a : ℚ) (hnn : ∀ x ∈ l, 0 ≤ x) :
    ∀ c ∈ cumsum a l, a ≤ c ∧ c ≤ a + l.sum := by
  induction l generalizing a with
  | nil => simp [cumsum]
  | cons x xs ih =>
    intro c hc
    have hx : 0 ≤ x := hnn x (List.mem_cons_self _ _)
    have hxs : ∀ y ∈ xs, 0 ≤ y := fun y hy => hnn y (List.mem_cons_of_mem _ hy)
    rcases List.mem_cons.mp hc with rfl | hc'
    · constructor
      · linarith
      · have : (0:ℚ) ≤ xs.sum := List.sum_nonneg hxs
        simp [List.sum_cons]
        linarith
    · obtain ⟨h1, h2⟩ := ih (a + x) hxs c hc'
      constructor
      · linarith
      · simp [List.sum_cons]
        linarith

/-- C7: calling evaluate_segs in the ground-truth-anchored mode stops
without ever producing mean_ap, rec_at_n or mprec_at_n results and
never falls back to another computation. -/
theorem evaluate_segs_gt_mode_returns_none (viou : VIou) (vocap : VocAp)
    (gt : List (ℕ × List GtRel)) (pred : List (ℕ × List PredRel)) (thr : ℚ)
    (detN tagN : List ℕ) :
    evaluate_segs viou vocap gt pred true thr detN tagN = none := rfl

/-- C1: eval_detection_scores processes the predictions in descending
score order; for each prediction it considers exactly the not yet
claimed ground-truth instances of equal triplet whose overlap reaches
the threshold, selects among them a candidate of maximal overlap (not
the first qualifying one), claims it and records the prediction score
at that rank, and otherwise leaves the negative-infinity miss
sentinel. -/
theorem eval_detection_scores_greedy_max_overlap (viou : VIou) (thr : ℚ)
    (gts : List GtRel) (preds : List PredRel) :
    List.Sorted predGe (sortPreds preds) ∧
    (sortPreds preds).Perm preds ∧
    (∀ p det k, innerLoop viou thr p gts det = some k →
      k < gts.length ∧ Qualify viou thr p gts det k ∧
        ∀ j, j < gts.length → Qualify viou thr p gts det j →
          ovOf viou p (gts.getD j default) ≤ ovOf viou p (gts.getD k default)) ∧
    (∀ p det, innerLoop viou thr p gts det = none →
      ∀ j, j < gts.length → ¬ Qualify viou thr p gts det j) ∧
    (∀ p ps det,
      detLoop viou thr gts (p :: ps) det =
        match innerLoop viou thr p gts det with
        | some k => some (p.score, k) :: detLoop viou thr gts ps (det.set k true)
        | none => none :: detLoop viou thr gts ps det) ∧
    (eval_detection_scores viou gts preds thr).2.2 =
      (detLoop viou thr gts (sortPreds preds) (List.replicate gts.length false)).map
        (Option.map Prod.fst) := by
  refine ⟨List.sorted_insertionSort predGe preds, List.perm_insertionSort predGe preds,
    ?_, ?_, ?_, rfl⟩
  · intro p det k h
    exact innerLoop_some viou thr p gts det k h
  · intro p det h
    exact innerLoop_none viou thr p gts det h
  · intro p ps det
    rfl

/-- Witness for C1: with two unclaimed same-triplet candidates of
overlaps 3/5 and 9/10 at threshold 1/2, the selected index is 1, it
qualifies, and its overlap dominates the first qualifying candidate. -/
theorem eval_detection_scores_greedy_max_overlap_witness :
    innerLoop viouW (1 / 2) pW gtsW [false, false] = some 1 ∧
    Qualify viouW (1 / 2) pW gtsW [false, false] 1 ∧
    ovOf viouW pW (gtsW.getD 0 default) ≤ ovOf viouW pW (gtsW.getD 1 default) := by
  have hil : innerLoop viouW (1 / 2) pW gtsW [false, false] = some 1 := by
    norm_num [innerLoop, innerAux, ovOf, ltOv, viouW, pW, gtsW, gW0, gW1, List.range_succ]
  have h := (eval_detection_scores_greedy_max_overlap viouW (1 / 2) gtsW [pW]).2.2.1 pW
    [false, false] 1 hil
  refine ⟨hil, h.2.1, h.2.2 0 (by norm_num [gtsW]) ?_⟩
  norm_num [Qualify, ovOf, viouW, pW, gtsW, gW0]

/-- C10: over one call of eval_detection_scores each ground-truth
instance is claimed by at most one prediction, the number of finite
entries of hit_scores is at most the ground-truth count, and every
recall value is at most 1. -/
theorem eval_detection_scores_claim_at_most_once (viou : VIou) (thr : ℚ)
    (gts : List GtRel) (preds : List PredRel) :
    (claimedIdx (detLoop viou thr gts (sortPreds preds)
      (List.replicate gts.length false))).Nodup ∧
    (eval_detection_scores viou gts preds thr).2.2.countP (fun o => o.isSome) ≤
      gts.length ∧
    ∀ r ∈ (eval_detection_scores viou gts preds thr).2.1, r ≤ 1 := by
  have hnodup := (detLoop_claimedIdx viou thr gts (sortPreds preds)
    (List.replicate gts.length false) (List.length_replicate _ _)).2
  have hcnt : (eval_detection_scores viou gts preds thr).2.2.countP (fun o => o.isSome) =
      (claimedIdx (detLoop viou thr gts (sortPreds preds)
        (List.replicate gts.length false))).length := countSome_map_fst _
  have hle := claimedIdx_length_le viou thr gts (sortPreds preds)
  have hcle : (eval_detection_scores viou gts preds thr).2.2.countP (fun o => o.isSome) ≤
      gts.length := by rw [hcnt]; exact hle
  refine ⟨hnodup, hcle, ?_⟩
  intro r hr
  have hrec : (eval_detection_scores viou gts preds thr).2.1 =
      (cumsum 0 (((eval_detection_scores viou gts preds thr).2.2).map indicator)).map
        (fun c => c / max ((gts.length : ℕ) : ℚ) eps32) := rfl
  rw [hrec] at hr
  obtain ⟨c, hc, rfl⟩ := List.mem_map.mp hr
  have hnn : ∀ x ∈ ((eval_detection_scores viou gts preds thr).2.2).map indicator,
      0 ≤ x := by
    intro x hx
    obtain ⟨o, -, rfl⟩ := List.mem_map.mp hx
    unfold indicator
    split <;> norm_num
  obtain ⟨h0, h1⟩ := cumsum_mem_bounds _ 0 hnn c hc
  rw [sum_indicator] at h1
  have hcq : c ≤ ((gts.length : ℕ) : ℚ) := by
    have hcast : (((eval_detection_scores viou gts preds thr).2.2.countP
        (fun o => o.isSome) : ℕ) : ℚ) ≤ ((gts.length : ℕ) : ℚ) := by exact_mod_cast hcle
    linarith
  rcases Nat.eq_zero_or_pos gts.length with hn | hn
  · have hc0 : c = 0 := by
      apply le_antisymm _ h0
      rw [hn] at hcq
      simpa using hcq
    rw [hc0]
    simp
  · have hmax : max ((gts.length : ℕ) : ℚ) eps32 = ((gts.length : ℕ) : ℚ) := by
      apply max_eq_left
      have h1n : (1 : ℚ) ≤ ((gts.length : ℕ) : ℚ) := by exact_mod_cast hn
      rw [eps32]
      linarith
    rw [hmax]
    have hpos : (0 : ℚ) < ((gts.length : ℕ) : ℚ) := by exact_mod_cast hn
    exact (div_le_one hpos).mpr hcq

/-- Witness for C10 at a concrete input: the single recall value 1 of a
perfect one-prediction run is at most 1. -/
theorem eval_detection_scores_claim_at_most_once_witness :
    (1 : ℚ) ∈ (eval_detection_scores viou1 [gA] [pA] (1 / 2)).2.1 ∧ (1 : ℚ) ≤ 1 := by
  have hmem : (1 : ℚ) ∈ (eval_detection_scores viou1 [gA] [pA] (1 / 2)).2.1 := by
    norm_num [eval_detection_scores, precRec, cumsum, indicator, detLoop, innerLoop,
      innerAux, ovOf, ltOv, viou1, gA, pA, sortPreds, eps32, List.range_succ]
  exact ⟨hmem, (eval_detection_scores_claim_at_most_once viou1 (1 / 2) [gA] [pA]).2.2 1 hmem⟩

theorem filter_map_comm {α β : Type} (f : α → β) (p : β → Bool) (l : List α) :
    (l.map f).filter p = (l.filter fun a => p (f a)).map f := by
  induction l with
  | nil => rfl
  | cons a t ih =>
    by_cases h : p (f a) = true <;> simp [h, ih]

theorem tagDedup_eq_dedupFirst : ∀ (l : List PredRel) (seen : List Triplet),
    tagDedup l seen =
      dedupFirst ((l.filter fun r => decide (r.triplet ∉ seen)).map fun r =>
        (r.triplet, r.score)) := by
  intro l
  induction l with
  | nil => intro seen; simp [tagDedup, dedupFirst]
  | cons r rs ih =>
    intro seen
    by_cases hm : r.triplet ∈ seen
    · have hd : (decide (r.triplet ∉ seen)) = false := by simp [hm]
      simp only [tagDedup, if_pos hm, List.filter_cons, hd, Bool.false_eq_true, if_false]
      exact ih seen
    · have hd : (decide (r.triplet ∉ seen)) = true := by simp [hm]
      simp only [tagDedup, if_neg hm, List.filter_cons, hd, if_true, List.map_cons]
      rw [dedupFirst, ih (seen ++ [r.triplet])]
      congr 1
      rw [filter_map_comm, List.filter_filter]
      refine congrArg _ (congrArg _ (List.filter_congr ?_))
      intro x hx
      by_cases h1 : x.triplet ∈ seen <;> by_cases h2 : x.triplet = r.triplet <;>
        simp [h1, h2]

/-- C5: eval_tagging_scores sorts the predictions by descending score,
keeps only the first occurrence of each distinct triplet, marks a
retained triplet as a hit exactly when it belongs to the ground-truth
triplet set, and on the example of the spec yields precision 1 at rank
1 and 1/2 at rank 2. -/
theorem eval_tagging_scores_dedup_spec :
    (∀ (gts : List GtRel) (preds : List PredRel),
      List.Sorted predGe (sortPreds preds) ∧
      (sortPreds preds).Perm preds ∧
      (eval_tagging_scores gts preds).2.2 =
        (dedupFirst ((sortPreds preds).map fun r => (r.triplet, r.score))).map
          fun ts => if ts.1 ∈ gts.map GtRel.triplet then some ts.2 else none) ∧
    (eval_tagging_scores [gA] [pA, pW, pC]).1.getD 0 0 = 1 ∧
    (eval_tagging_scores [gA] [pA, pW, pC]).1.getD 1 0 = 1 / 2 := by
  have hpairs : ∀ preds : List PredRel, tagDedup (sortPreds preds) [] =
      dedupFirst ((sortPreds preds).map fun r => (r.triplet, r.score)) := by
    intro preds
    rw [tagDedup_eq_dedupFirst]
    congr 2
    simp
  refine ⟨?_, ?_, ?_⟩
  · intro gts preds
    refine ⟨List.sorted_insertionSort predGe preds, List.perm_insertionSort predGe preds, ?_⟩
    show (tagDedup (sortPreds preds) []).map _ = _
    rw [hpairs]
  · norm_num [eval_tagging_scores, tagDedup, sortPreds, predGe, precRec, cumsum, indicator,
      eps32, gA, pA, pW, pC, List.dedup_cons_of_not_mem]
  · norm_num [eval_tagging_scores, tagDedup, sortPreds, predGe, precRec, cumsum, indicator,
      eps32, gA, pA, pW, pC, List.dedup_cons_of_not_mem]

theorem gtLoop_some_eq (viou : VIou) (vocap : VocAp) (thr : ℚ)
    (pred : List (ℕ × List PredRel)) :
    ∀ (gt : List (ℕ × List GtRel)) (cs : List Contrib) (tot : ℕ),
      gtLoop viou vocap thr pred gt = some (cs, tot) →
      cs = (evalVideos gt).map (fun p =>
        videoContrib viou vocap thr p.2 ((pred.lookup p.1).getD [])) ∧
      tot = ((evalVideos gt).map fun p => p.2.length).sum := by
  intro gt
  induction gt with
  | nil =>
    intro cs tot h
    simp only [gtLoop, Option.some.injEq, Prod.mk.injEq] at h
    simp [evalVideos, ← h.1, ← h.2]
  | cons x rest ih =>
    intro cs tot h
    obtain ⟨vid, gts⟩ := x
    by_cases he : gts.isEmpty
    · rw [gtLoop, if_pos he] at h
      have hev : evalVideos ((vid, gts) :: rest) = evalVideos rest := by
        simp [evalVideos, List.filter_cons, he]
      rw [hev]
      exact ih cs tot h
    · rw [gtLoop, if_neg he] at h
      cases hlk : pred.lookup vid with
      | none => rw [hlk] at h; exact absurd h (by simp)
      | some preds =>
        rw [hlk] at h
        rw [Option.map_eq_some'] at h
        obtain ⟨ct, hct, heq⟩ := h
        have hrest : gtLoop viou vocap thr pred rest = some (ct.1, ct.2) := by
          rw [hct]
        obtain ⟨ih1, ih2⟩ := ih ct.1 ct.2 hrest
        have hev : evalVideos ((vid, gts) :: rest) = (vid, gts) :: evalVideos rest := by
          simp [evalVideos, List.filter_cons, he]
        rw [hev]
        rw [Prod.mk.injEq] at heq
        constructor
        · rw [← heq.1, List.map_cons, ← ih1, hlk]
          rfl
        · rw [← heq.2, List.map_cons, List.sum_cons, ← ih2]

theorem cumsum_getLast (l : List ℚ) (a : ℚ) (hne : l ≠ []) :
    (cumsum a l).getLast? = some (a + l.sum) := by
  induction l generalizing a with
  | nil => exact absurd rfl hne
  | cons x xs ih =>
    cases xs with
    | nil => simp [cumsum, List.sum_cons]
    | cons y t =>
      have hstep : cumsum a (x :: y :: t) = (a + x) :: cumsum (a + x) (y :: t) := rfl
      have hstep2 : cumsum (a + x) (y :: t) = (a + x + y) :: cumsum (a + x + y) t := rfl
      rw [hstep, hstep2, List.getLast?_cons_cons, ← hstep2, ih (a + x) (by simp)]
      congr 1
      simp [List.sum_cons]
      ring

theorem recAtN_eq_of_some (pooled : List (Option ℚ)) (tot : ℕ) (x : ℚ)
    (h : recAtN pooled tot = some x) :
    pooled ≠ [] ∧
      x = ((pooled.countP fun o => o.isSome : ℕ) : ℚ) / max (tot : ℚ) eps32 := by
  have hperm := List.perm_insertionSort optGe pooled
  by_cases hp : pooled = []
  · subst hp
    simp [recAtN, cumsum] at h
  · refine ⟨hp, ?_⟩
    have hsne : pooled.insertionSort optGe ≠ [] := by
      intro hh
      rw [hh] at hperm
      exact hp (hperm.symm.eq_nil)
    have hne : (pooled.insertionSort optGe).map indicator ≠ [] := by
      simp only [ne_eq, List.map_eq_nil_iff]
      exact hsne
    rw [recAtN, cumsum_getLast _ 0 hne] at h
    rw [Option.map_some'] at h
    rw [Option.some.injEq] at h
    rw [← h, sum_indicator, hperm.countP_eq]
    ring_nf

theorem mapM_pairs_lookup (gq : ℕ → Option ℚ) :
    ∀ (ns : List ℕ) (rs : List (ℕ × ℚ)) (n : ℕ) (x : ℚ),
      (ns.mapM fun m => (gq m).map fun v => (m, v)) = some rs →
      rs.lookup n = some x → n ∈ ns ∧ gq n = some x := by
  intro ns
  induction ns with
  | nil =>
    intro rs n x hm hl
    simp only [List.mapM_nil, pure, Option.some.injEq] at hm
    rw [← hm] at hl
    simp [List.lookup] at hl
  | cons m ms ih =>
    intro rs n x hm hl
    rw [List.mapM_cons] at hm
    simp only [Option.bind_eq_bind, Option.bind_eq_some, Option.map_eq_some',
      Option.pure_def, Option.some.injEq] at hm
    obtain ⟨b, ⟨v, hv, hb⟩, rs', hrs', hcons⟩ := hm
    rw [← hcons, ← hb] at hl
    rw [List.lookup_cons] at hl
    by_cases hnm : n = m
    · subst hnm
      simp only [beq_self_eq_true] at hl
      simp only [Option.some.injEq] at hl
      exact ⟨List.mem_cons_self _ _, by rw [hv, hl]⟩
    · have hb2 : (n == m) = false := by simp [hnm]
      rw [hb2] at hl
      obtain ⟨hmem, hgq⟩ := ih rs' n x hrs' hl
      exact ⟨List.mem_cons_of_mem _ hmem, hgq⟩

theorem lookup_map_pairs (f : ℕ → ℚ) :
    ∀ (l : List ℕ) (n : ℕ), n ∈ l →
      (l.map fun m => (m, f m)).lookup n = some (f n) := by
  intro l
  induction l with
  | nil => intro n hn; exact absurd hn (List.not_mem_nil n)
  | cons m ms ih =>
    intro n hn
    rw [List.map_cons, List.lookup_cons]
    by_cases hnm : n = m
    · subst hnm
      simp
    · have hb2 : (n == m) = false := by simp [hnm]
      rw [hb2]
      exact ih n ((List.mem_cons.mp hn).resolve_left hnm)

theorem evaluate_gt_some (viou : VIou) (vocap : VocAp) (gt : List (ℕ × List GtRel))
    (pred : List (ℕ × List PredRel)) (thr : ℚ) (detN tagN : List ℕ) (r : EvalResult)
    (h : evaluate viou vocap gt pred true thr detN tagN = some r) :
    ∃ cs tot rs, gtLoop viou vocap thr pred gt = some (cs, tot) ∧
      (detN.mapM fun n =>
        (recAtN ((cs.map fun c => c.detScores.take n).flatten) tot).map fun x =>
          (n, x)) = some rs ∧
      r = ⟨(cs.map Contrib.ap).sum / ((cs.map Contrib.ap).length : ℚ), rs,
        tagN.map fun n =>
          (n, (cs.map fun c => precAtCut c.tagPrec n).sum / (cs.length : ℚ))⟩ := by
  rw [evaluate, if_pos rfl] at h
  rw [Option.bind_eq_some] at h
  obtain ⟨ct, hct, hasm⟩ := h
  rw [assemble, Option.map_eq_some'] at hasm
  obtain ⟨rs, hrs, hr⟩ := hasm
  exact ⟨ct.1, ct.2, rs, by rw [hct], hrs, hr.symm⟩

theorem eval_exGt2 :
    evaluate viou1 voc_ap exGt2 exPred2 true (1 / 2) [50, 100] [1, 5, 10] =
      some ⟨1 / 2, [(50, 1 / 2), (100, 1 / 2)], [(1, 1 / 2), (5, 1 / 2), (10, 1 / 2)]⟩ := by
  have l0 : exPred2.lookup 0 = some [pA] := by simp [exPred2, List.lookup]
  have l1 : exPred2.lookup 1 = some [pB] := by simp [exPred2, List.lookup]
  have hc0 : videoContrib viou1 voc_ap (1 / 2) [gA] [pA] =
      ⟨1, [some (9 / 10)], [1]⟩ := by
    norm_num [videoContrib, eval_detection_scores, eval_tagging_scores, detLoop, innerLoop,
      innerAux, ovOf, ltOv, sortPreds, tagDedup, precRec, cumsum, indicator, voc_ap,
      envelope, eps32, predGe, viou1, gA, pA, List.range_succ, List.dedup_cons_of_not_mem]
  have hc1 : videoContrib viou1 voc_ap (1 / 2) [gB] [pB] = ⟨0, [none], [0]⟩ := by
    norm_num [videoContrib, eval_detection_scores, eval_tagging_scores, detLoop, innerLoop,
      innerAux, ovOf, ltOv, sortPreds, tagDedup, precRec, cumsum, indicator, voc_ap,
      envelope, eps32, predGe, viou1, gB, pB, List.range_succ, List.dedup_cons_of_not_mem]
  have hloop : gtLoop viou1 voc_ap (1 / 2) exPred2 exGt2 =
      some ([⟨1, [some (9 / 10)], [1]⟩, ⟨0, [none], [0]⟩], 2) := by
    simp [gtLoop, exGt2, l0, l1, hc0, hc1, -one_div]
  have hr : recAtN [some (9 / 10), none] 2 = some (1 / 2) := by
    norm_num [recAtN, cumsum, indicator, optGe, eps32, List.getLast?_cons_cons,
      List.getLast?_singleton]
  simp only [evaluate, eq_self_iff_true, if_true, hloop]
  simp [assemble, List.mapM.loop, List.take_of_length_le, hr, precAtCut]

theorem eval_exGt4 :
    evaluate viou1 voc_ap exGt4 exPred4 true (1 / 2) [50, 100] [1, 5, 10] =
      some ⟨1, [(50, 1), (100, 1)], [(1, 1), (5, 1), (10, 1)]⟩ := by
  have l0 : exPred4.lookup 0 = some [pA] := by simp [exPred4, List.lookup]
  have hc0 : videoContrib viou1 voc_ap (1 / 2) [gA] [pA] =
      ⟨1, [some (9 / 10)], [1]⟩ := by
    norm_num [videoContrib, eval_detection_scores, eval_tagging_scores, detLoop, innerLoop,
      innerAux, ovOf, ltOv, sortPreds, tagDedup, precRec, cumsum, indicator, voc_ap,
      envelope, eps32, predGe, viou1, gA, pA, List.range_succ, List.dedup_cons_of_not_mem]
  have hloop : gtLoop viou1 voc_ap (1 / 2) exPred4 exGt4 =
      some ([⟨1, [some (9 / 10)], [1]⟩], 1) := by
    simp [gtLoop, exGt4, l0, hc0, -one_div]
  have hr : recAtN [some (9 / 10)] 1 = some 1 := by
    norm_num [recAtN, cumsum, indicator, optGe, eps32, List.getLast?_singleton]
  simp only [evaluate, eq_self_iff_true, if_true, hloop]
  simp [assemble, List.mapM.loop, List.take_of_length_le, hr, precAtCut]

/-- C2: with the ground-truth-anchored mode, every returned rec_at_n
value equals the pooled-hit count among the top-n ranked predictions of
each evaluated video divided by the total ground-truth relation count of
those videos; on the two-video example with one hit and one miss,
rec_at_n at 50 is 1/2. -/
theorem evaluate_rec_at_n_pooled :
    (∀ (viou : VIou) (vocap : VocAp) (gt : List (ℕ × List GtRel))
      (pred : List (ℕ × List PredRel)) (thr : ℚ) (detN tagN : List ℕ) (r : EvalResult)
      (n : ℕ) (x : ℚ),
      evaluate viou vocap gt pred true thr detN tagN = some r →
      r.rec_at_n.lookup n = some x →
      x = claimedRecAtN viou thr gt pred n) ∧
    (evaluate viou1 voc_ap exGt2 exPred2 true (1 / 2) [50, 100] [1, 5, 10]).map
      (fun r => r.rec_at_n.lookup 50) = some (some (1 / 2)) := by
  constructor
  · intro viou vocap gt pred thr detN tagN r n x h hx
    obtain ⟨cs, tot, rs, hloop, hmapm, hr⟩ :=
      evaluate_gt_some viou vocap gt pred thr detN tagN r h
    obtain ⟨hcs, htot⟩ := gtLoop_some_eq viou vocap thr pred gt cs tot hloop
    rw [hr] at hx
    obtain ⟨-, hgq⟩ := mapM_pairs_lookup _ detN rs n x hmapm hx
    obtain ⟨hpool, hval⟩ := recAtN_eq_of_some _ tot x hgq
    have hcsne : cs ≠ [] := by
      intro hnil
      rw [hnil] at hpool
      simp at hpool
    have hevne : evalVideos gt ≠ [] := by
      intro hnil
      rw [hcs, hnil] at hcsne
      simp at hcsne
    have htot1 : 1 ≤ tot := by
      rw [htot]
      obtain ⟨p, hp⟩ := List.exists_mem_of_ne_nil _ hevne
      have hpmem : p.2.length ∈ (evalVideos gt).map fun q => q.2.length :=
        List.mem_map_of_mem _ hp
      have hple : p.2.length ≤ ((evalVideos gt).map fun q => q.2.length).sum :=
        List.single_le_sum (fun c _ => Nat.zero_le c) _ hpmem
      have hpne : p.2 ≠ [] := by
        have := List.mem_filter.mp hp
        simpa using this.2
      have : 1 ≤ p.2.length := List.length_pos.mpr hpne
      omega
    have hmax : max (tot : ℚ) eps32 = (tot : ℚ) := by
      apply max_eq_left
      have h1t : (1 : ℚ) ≤ (tot : ℚ) := by exact_mod_cast htot1
      rw [eps32]
      linarith
    rw [hval, hmax, claimedRecAtN, htot, hcs]
    rw [List.countP_flatten, List.map_map, List.map_map, Nat.cast_list_sum, List.map_map]
    simp [Function.comp_def, videoContrib]
  · rw [eval_exGt2]
    simp [List.lookup]

/-- Witness for C2: evaluating the universal statement at the two-video
example identifies the code value 1/2 with the claimed pooled ratio. -/
theorem evaluate_rec_at_n_pooled_witness :
    (1 : ℚ) / 2 = claimedRecAtN viou1 (1 / 2) exGt2 exPred2 50 := by
  apply evaluate_rec_at_n_pooled.1 viou1 voc_ap exGt2 exPred2 (1 / 2) [50, 100] [1, 5, 10]
    ⟨1 / 2, [(50, 1 / 2), (100, 1 / 2)], [(1, 1 / 2), (5, 1 / 2), (10, 1 / 2)]⟩ 50 (1 / 2)
    eval_exGt2
  simp [List.lookup]

/-- C3: in the ground-truth-anchored mode, whenever some video has a
non-empty ground-truth list and evaluate returns, mean_ap is the
arithmetic mean of the per-video AP values of exactly the videos with
at least one ground-truth relation; videos with none are excluded, not
counted as zero. -/
theorem evaluate_mean_ap_over_nonempty (viou : VIou) (vocap : VocAp)
    (gt : List (ℕ × List GtRel)) (pred : List (ℕ × List PredRel)) (thr : ℚ)
    (detN tagN : List ℕ) (r : EvalResult)
    (hne : ∃ p ∈ gt, p.2 ≠ ([] : List GtRel))
    (h : evaluate viou vocap gt pred true thr detN tagN = some r) :
    r.mean_ap = claimedMeanAp viou vocap thr gt pred := by
  obtain ⟨cs, tot, rs, hloop, hmapm, hr⟩ :=
    evaluate_gt_some viou vocap gt pred thr detN tagN r h
  obtain ⟨hcs, -⟩ := gtLoop_some_eq viou vocap thr pred gt cs tot hloop
  rw [hr]
  show (cs.map Contrib.ap).sum / ((cs.map Contrib.ap).length : ℚ) = _
  rw [hcs, claimedMeanAp, List.map_map]
  simp [Function.comp_def, videoContrib]

/-- Witness for C3: at the two-video example the returned mean AP 1/2
is the mean of the two per-video AP values. -/
theorem evaluate_mean_ap_over_nonempty_witness :
    (⟨1 / 2, [(50, 1 / 2), (100, 1 / 2)],
      [(1, 1 / 2), (5, 1 / 2), (10, 1 / 2)]⟩ : EvalResult).mean_ap =
      claimedMeanAp viou1 voc_ap (1 / 2) exGt2 exPred2 := by
  apply evaluate_mean_ap_over_nonempty viou1 voc_ap exGt2 exPred2 (1 / 2) [50, 100]
    [1, 5, 10]
  · exact ⟨(0, [gA]), by simp [exGt2], by simp⟩
  · exact eval_exGt2

/-- C4 fails on the code: a video with one retained tagged triplet and
cutoff 5 contributes its precision at rank 1 (here 1), not 0, so the
returned mprec_at_n at 5 is 1 while the claimed value is 0. -/
theorem evaluate_mprec_at_n_counterexample :
    (evaluate viou1 voc_ap exGt4 exPred4 true (1 / 2) [50, 100] [1, 5, 10]).map
      (fun r => r.mprec_at_n.lookup 5) = some (some 1) ∧
    claimedMprecAtN exGt4 exPred4 5 = 0 ∧ (1 : ℚ) ≠ 0 := by
  refine ⟨?_, ?_, one_ne_zero⟩
  · rw [eval_exGt4]
    simp [List.lookup]
  · have l0 : exPred4.lookup 0 = some [pA] := by simp [exPred4, List.lookup]
    norm_num [claimedMprecAtN, evalVideos, exGt4, l0, eval_tagging_scores, tagDedup,
      sortPreds, precRec, cumsum, indicator, eps32, gA, pA, List.dedup_cons_of_not_mem]

theorem precAtCut_pos (tp : List ℚ) (n : ℕ) (hn : 0 < n) :
    precAtCut tp n = if tp.isEmpty then 0 else tp.getD (min n tp.length - 1) 0 := by
  cases tp with
  | nil => simp [precAtCut]
  | cons x t => simp [precAtCut, Nat.lt_min, hn]

/-- C4 amended: mprec_at_n at a positive cutoff n is the mean over
evaluated videos of the tagging precision at rank min(n, m) where m is
the number of retained triplets; only a video with m = 0 contributes
0. -/
theorem evaluate_mprec_at_n_amended (viou : VIou) (vocap : VocAp)
    (gt : List (ℕ × List GtRel)) (pred : List (ℕ × List PredRel)) (thr : ℚ)
    (detN tagN : List ℕ) (r : EvalResult) (n : ℕ)
    (hn : 0 < n) (hmem : n ∈ tagN)
    (h : evaluate viou vocap gt pred true thr detN tagN = some r) :
    r.mprec_at_n.lookup n = some (amendedMprecAtN gt pred n) := by
  obtain ⟨cs, tot, rs, hloop, hmapm, hr⟩ :=
    evaluate_gt_some viou vocap gt pred thr detN tagN r h
  obtain ⟨hcs, -⟩ := gtLoop_some_eq viou vocap thr pred gt cs tot hloop
  rw [hr]
  show (tagN.map fun m =>
    (m, (cs.map fun c => precAtCut c.tagPrec m).sum / (cs.length : ℚ))).lookup n = _
  rw [lookup_map_pairs _ tagN n hmem]
  congr 1
  rw [hcs, amendedMprecAtN, List.map_map]
  have hpt : ∀ tp : List ℚ, precAtCut tp n =
      if tp.isEmpty then 0 else tp.getD (min n tp.length - 1) 0 :=
    fun tp => precAtCut_pos tp n hn
  simp [Function.comp_def, videoContrib, hpt]

/-- Witness for C4 amended at the one-video example with cutoff 5. -/
theorem evaluate_mprec_at_n_amended_witness :
    (⟨1, [(50, 1), (100, 1)], [(1, 1), (5, 1), (10, 1)]⟩ : EvalResult).mprec_at_n.lookup 5 =
      some (amendedMprecAtN exGt4 exPred4 5) := by
  apply evaluate_mprec_at_n_amended viou1 voc_ap exGt4 exPred4 (1 / 2) [50, 100] [1, 5, 10]
    _ 5 (by norm_num) (by simp) eval_exGt4

theorem gtLoop_missing_none (viou : VIou) (vocap : VocAp) (thr : ℚ)
    (pred : List (ℕ × List PredRel)) :
    ∀ (gt : List (ℕ × List GtRel)) (vid : ℕ) (rels : List GtRel),
      (vid, rels) ∈ gt → rels ≠ [] → pred.lookup vid = none →
      gtLoop viou vocap thr pred gt = none := by
  intro gt
  induction gt with
  | nil => intro vid rels hmem; exact absurd hmem (List.not_mem_nil _)
  | cons x rest ih =>
    intro vid rels hmem hne hlk
    obtain ⟨v, gts⟩ := x
    rcases List.mem_cons.mp hmem with heq | hmem'
    · obtain ⟨h1, h2⟩ := Prod.mk.injEq .. ▸ heq
      subst h1
      subst h2
      have hie : ¬ rels.isEmpty = true := by
        simp [List.isEmpty_iff]
        exact hne
      rw [gtLoop, if_neg hie, hlk]
    · by_cases he : gts.isEmpty
      · rw [gtLoop, if_pos he]
        exact ih vid rels hmem' hne hlk
      · rw [gtLoop, if_neg he]
        cases hl2 : pred.lookup v with
        | none => rfl
        | some preds =>
          rw [ih vid rels hmem' hne hlk]
          rfl

/-- C8 fails on the code: with one non-empty ground-truth video absent
from the prediction mapping, evaluate does not complete with an empty
prediction list; the lookup fails and nothing is returned. -/
theorem evaluate_missing_video_counterexample :
    evaluate viou1 voc_ap exGt4 [] true (1 / 2) [50, 100] [1, 5, 10] = none := by
  simp [evaluate, gtLoop, exGt4, List.lookup]

/-- C8 amended: in the ground-truth-anchored mode, a video with a
non-empty ground-truth relation list that is missing from the
prediction mapping makes evaluate fail (the KeyError escape) rather
than evaluate the video against an empty prediction list; the caller
must supply every such key. -/
theorem evaluate_missing_video_fails (viou : VIou) (vocap : VocAp)
    (gt : List (ℕ × List GtRel)) (pred : List (ℕ × List PredRel)) (thr : ℚ)
    (detN tagN : List ℕ) (vid : ℕ) (rels : List GtRel)
    (hmem : (vid, rels) ∈ gt) (hne : rels ≠ []) (hlk : pred.lookup vid = none) :
    evaluate viou vocap gt pred true thr detN tagN = none := by
  rw [evaluate, if_pos rfl, gtLoop_missing_none viou vocap thr pred gt vid rels hmem hne hlk]
  rfl

/-- Witness for C8 amended at the concrete missing-key input. -/
theorem evaluate_missing_video_fails_witness :
    evaluate viou1 voc_ap exGt4 [] true (1 / 2) [50, 100] [1, 5, 10] = none := by
  apply evaluate_missing_video_fails viou1 voc_ap exGt4 [] (1 / 2) [50, 100] [1, 5, 10] 0 [gA]
  · simp [exGt4]
  · simp
  · rfl

/-- C6 fails as the code stands: the per-segment AP is written to
seg_ap keyed by video id, so a later segment overwrites an earlier one
and only one AP value per video enters the mean.  At a video with two
segments of AP values 1 and 0, the reported mean AP is 0 (the AP of the
last segment) while the per-segment mean the spec describes is 1/2. -/
theorem evaluate_segs_last_segment_ap_only :
    evaluate_segs viou1 voc_ap gtC6 predC6 false (1 / 2) [50, 100] [1, 5, 10] =
      some ⟨0, [(50, 1), (100, 1)], [(1, 1 / 2), (5, 1 / 2), (10, 1 / 2)]⟩ ∧
    perSegmentMeanAp viou1 voc_ap (1 / 2) gtC6 predC6 = 1 / 2 ∧
    (0 : ℚ) ≠ 1 / 2 := by
  have l0 : gtC6.lookup 0 = some [gA, segB] := by simp [gtC6, List.lookup]
  have hc0 : videoContrib viou1 voc_ap (1 / 2) [gA] [pA] =
      ⟨1, [some (9 / 10)], [1]⟩ := by
    norm_num [videoContrib, eval_detection_scores, eval_tagging_scores, detLoop, innerLoop,
      innerAux, ovOf, ltOv, sortPreds, tagDedup, precRec, cumsum, indicator, voc_ap,
      envelope, eps32, predGe, viou1, gA, pA, List.range_succ, List.dedup_cons_of_not_mem]
  have hcB : videoContrib viou1 voc_ap (1 / 2) [segB] [pA] = ⟨0, [none], [0]⟩ := by
    norm_num [videoContrib, eval_detection_scores, eval_tagging_scores, detLoop, innerLoop,
      innerAux, ovOf, ltOv, sortPreds, tagDedup, precRec, cumsum, indicator, voc_ap,
      envelope, eps32, predGe, viou1, segB, pA, List.range_succ, List.dedup_cons_of_not_mem]
  refine ⟨?_, ?_, by norm_num⟩
  · have hloop : segsLoop viou1 voc_ap (1 / 2) gtC6 predC6 [] [] 0 =
        some ([(0, 0)], [⟨1, [some (9 / 10)], [1]⟩, ⟨0, [none], [0]⟩], 1) := by
      simp [segsLoop, segsInner, dictInsert, predC6, l0, hc0, hcB, -one_div]
    have hr : recAtN [some (9 / 10), none] 1 = some 1 := by
      norm_num [recAtN, cumsum, indicator, optGe, eps32, List.getLast?_cons_cons,
        List.getLast?_singleton]
    rw [evaluate_segs, if_neg (by simp), hloop]
    simp [assembleSegs, List.mapM.loop, List.take_of_length_le, hr, precAtCut]
  · simp [perSegmentMeanAp, gtC6, predC6, List.lookup, hc0, hcB, -one_div]

theorem zsLoop_mem (zs : List Triplet) (relInsts : ℕ → List GtRel)
    (prediction : List (ℕ × List PredRel)) :
    ∀ (index : List ℕ) (g : List (ℕ × List GtRel)) (z : List (ℕ × List PredRel)),
      zsLoop zs relInsts prediction index = some (g, z) →
      (∀ p ∈ g, ∀ r ∈ p.2, r.triplet ∈ zs) ∧
      (∀ p ∈ z, ∀ r ∈ p.2, r.triplet ∈ zs) := by
  intro index
  induction index with
  | nil =>
    intro g z h
    simp only [zsLoop, Option.some.injEq, Prod.mk.injEq] at h
    constructor
    · intro p hp
      rw [← h.1] at hp
      exact absurd hp (List.not_mem_nil p)
    · intro p hp
      rw [← h.2] at hp
      exact absurd hp (List.not_mem_nil p)
  | cons vid rest ih =>
    intro g z h
    rw [zsLoop] at h
    by_cases he : ((relInsts vid).filter fun r => decide (r.triplet ∈ zs)).isEmpty
    · rw [if_pos he] at h
      exact ih g z h
    · rw [if_neg he] at h
      cases hlk : prediction.lookup vid with
      | none => rw [hlk] at h; exact absurd h (by simp)
      | some preds =>
        rw [hlk, Option.map_eq_some'] at h
        obtain ⟨gz, hgz, heq⟩ := h
        obtain ⟨ihg, ihz⟩ := ih gz.1 gz.2 (by rw [hgz])
        rw [Prod.mk.injEq] at heq
        constructor
        · intro p hp
          rw [← heq.1] at hp
          rcases List.mem_cons.mp hp with rfl | hp'
          · intro r hr
            have := List.mem_filter.mp hr
            simpa using this.2
          · exact ihg p hp'
        · intro p hp
          rw [← heq.2] at hp
          rcases List.mem_cons.mp hp with rfl | hp'
          · intro r hr
            have := List.mem_filter.mp hr
            simpa using this.2
          · exact ihz p hp'

/-- C9: whenever the zero-shot filtering pass returns, no triplet that
occurs in the train vocabulary (in particular one present in both the
split and the train vocabularies) occurs in the filtered ground truth
or in the filtered predictions: the intersection of the zero-shot
triplet sets with the train vocabulary is empty. -/
theorem evaluate_relation_zeroshot_excludes_train (splitT trainT : List Triplet)
    (index : List ℕ) (relInsts : ℕ → List GtRel) (prediction : List (ℕ × List PredRel))
    (g : List (ℕ × List GtRel)) (z : List (ℕ × List PredRel))
    (h : evaluate_relation_zeroshot splitT trainT index relInsts prediction = some (g, z)) :
    ∀ t ∈ trainT, t ∈ splitT →
      (∀ p ∈ g, ∀ r ∈ p.2, r.triplet ≠ t) ∧
      (∀ p ∈ z, ∀ r ∈ p.2, r.triplet ≠ t) := by
  obtain ⟨hg, hz⟩ := zsLoop_mem _ relInsts prediction index g z h
  intro t htr _
  have hnot : ∀ u : Triplet, u ∈ splitT.filter (fun u => decide (u ∉ trainT)) → u ≠ t := by
    intro u hu hut
    have := List.mem_filter.mp hu
    rw [hut] at this
    simp at this
    exact this.2 htr
  exact ⟨fun p hp r hr => hnot r.triplet (hg p hp r hr),
    fun p hp r hr => hnot r.triplet (hz p hp r hr)⟩

/-- Witness for C9: with split vocabulary containing (1,2,3) and
(4,5,6), train vocabulary containing (1,2,3), the filtered ground
truth and predictions of the single video carry no (1,2,3) instance. -/
theorem evaluate_relation_zeroshot_excludes_train_witness :
    segB.triplet ≠ (1, 2, 3) ∧ pB.triplet ≠ (1, 2, 3) := by
  have h : evaluate_relation_zeroshot [(1, 2, 3), (4, 5, 6)] [(1, 2, 3)] [0]
      (fun _ => [gA, segB]) [(0, [pA, pB])] = some ([(0, [segB])], [(0, [pB])]) := by
    simp [evaluate_relation_zeroshot, zsLoop, List.lookup, gA, segB, pA, pB]
  have hmain := evaluate_relation_zeroshot_excludes_train [(1, 2, 3), (4, 5, 6)] [(1, 2, 3)]
    [0] (fun _ => [gA, segB]) [(0, [pA, pB])] [(0, [segB])] [(0, [pB])] h (1, 2, 3)
    (by simp) (by simp)
  exact ⟨hmain.1 (0, [segB]) (by simp) segB (by simp),
    hmain.2 (0, [pB]) (by simp) pB (by simp)⟩
